import Mathlib

/-!
Verification of the tiktoken BPE core (merge engine with merge-dropout,
encoder, decoder) and of the `tiktoken_ext/openai_public.py` encoding
registry, against the repository's specification.

The repository ships only the registry and the dropout tests; the merge
engine itself lives outside `src/`, so it is modelled here from the
specification's algorithm (section 4.2) and data model (section 3).
Bytes are natural numbers below 256, byte-sequences are lists of bytes,
probabilities and random draws are rationals, and the per-pass random
draws are an explicit stream `Nat → ℚ`, following the spec's design note
that the randomness source is an injected dependency.
-/

namespace TiktokenSpec

/-- A byte-sequence: the key type of the Rank Table and the fragment type
of the Symbol Sequence. Bytes are modelled as naturals. -/
abbrev ByteSeq := List Nat

/-- Modelled from the spec: the Rank Table (section 3, `MergeableRanks`),
absent from `src/` — a mapping from byte-sequence to rank, modelled as an
association list; lookup returns the first matching key. -/
abbrev RankTable := List (ByteSeq × Nat)

/-- Modelled from the spec: the Special-Token Table (section 3,
`SpecialTokens`), absent from `src/` — literal byte strings mapped to
reserved identifiers. -/
abbrev SpecialTokens := List (ByteSeq × Nat)

/-- Modelled from the spec: the error taxonomy of section 7 (the parts the
core can raise), absent from `src/`. -/
inductive BpeError where
  | emptyChunk
  | unknownByteSequence
  | invalidParameter
  | unknownTokenId
  deriving DecidableEq

/-- Modelled from the spec: Rank Table forward lookup (section 4.1) —
given a byte-sequence, return its rank if present, else absent. -/
def rankOf : RankTable → ByteSeq → Option Nat
  | [], _ => none
  | (k, r) :: rest, s => if k = s then some r else rankOf rest s

/-- Modelled from the spec: Rank Table reverse lookup (section 4.1) —
given a rank, return its originating byte-sequence (used only by decode). -/
def byteSeqOf : RankTable → Nat → Option ByteSeq
  | [], _ => none
  | (k, r) :: rest, i => if r = i then some k else byteSeqOf rest i

/-- The concatenation of the adjacent fragment pair at position `i` of a
Symbol Sequence. -/
def pairAt (syms : List ByteSeq) (i : Nat) : ByteSeq :=
  syms.getD i [] ++ syms.getD (i + 1) []

/-- Modelled from the spec: step (a) of the priority-merge loop (section
4.2), absent from `src/` — scan all adjacent fragment pairs left to
right; a pair is a merge candidate iff the concatenation of its two
fragments is present in the Rank Table. Each candidate is recorded as
(position, rank of the concatenation). -/
def candidates (T : RankTable) (syms : List ByteSeq) : List (Nat × Nat) :=
  (List.range (syms.length - 1)).filterMap fun i =>
    (rankOf T (pairAt syms i)).map fun r => (i, r)

/-- Modelled from the spec: step (c) of the priority-merge loop (section
4.2), absent from `src/` — one independent uniform draw per candidate,
taken from the injected stream starting at index `j`; a candidate is
dropped iff its draw is `< p`, i.e. it survives iff `p ≤ draw`. -/
def survivorsAux (p : ℚ) (draws : Nat → ℚ) : Nat → List (Nat × Nat) → List (Nat × Nat)
  | _, [] => []
  | j, c :: cs =>
    if p ≤ draws j then c :: survivorsAux p draws (j + 1) cs
    else survivorsAux p draws (j + 1) cs

/-- Modelled from the spec: the dropout filter of section 4.2 — applied
only when `p > 0`; with `p = 0` no draws are taken and every candidate
survives. `n` is the index of the next unused draw of the stream. -/
def survivors (p : ℚ) (draws : Nat → ℚ) (n : Nat) (cands : List (Nat × Nat)) :
    List (Nat × Nat) :=
  if p = 0 then cands else survivorsAux p draws n cands

/-- Modelled from the spec: step (d)'s selection (section 4.2) — among the
remaining candidates, the pair whose concatenation has the lowest rank;
when several positions tie on the rank the leftmost is kept (the spec's
section 9 leaves the positional tie-break open; leftmost is the
reference implementation's behaviour). -/
def pickMin : List (Nat × Nat) → Option (Nat × Nat)
  | [] => none
  | c :: cs => some (cs.foldl (fun best x => if x.2 < best.2 then x else best) c)

/-- Modelled from the spec: step (d)'s merge (section 4.2) — replace the
adjacent pair at position `i` with its single merged fragment, shifting
subsequent fragments left by one position. -/
def mergeAt : List ByteSeq → Nat → List ByteSeq
  | a :: b :: rest, 0 => (a ++ b) :: rest
  | a :: rest, i + 1 => a :: mergeAt rest i
  | l, _ => l

/-- Modelled from the spec: the priority-merge loop of section 4.2 (step
2), absent from `src/` — repeat until no step performs a merge: compute
the candidates, drop each independently with probability `p`, stop if
none survives, otherwise merge the surviving pair of lowest rank and
rescan. `fuel` bounds the number of passes (each pass that recurses has
performed one merge, so a fuel of the chunk length is always enough);
`n` counts the draws consumed so far. -/
def bpeLoop (T : RankTable) (p : ℚ) (draws : Nat → ℚ) :
    Nat → Nat → List ByteSeq → List ByteSeq
  | 0, _, syms => syms
  | fuel + 1, n, syms =>
    match pickMin (survivors p draws n (candidates T syms)) with
    | none => syms
    | some ic => bpeLoop T p draws fuel (n + (candidates T syms).length) (mergeAt syms ic.1)

/-- Modelled from the spec: the plain (non-dropout) reference BPE loop —
the behaviour of `encode` invoked with no dropout argument: always merge
the lowest-rank candidate, no draws, stop when no candidate remains. -/
def bpeRefLoop (T : RankTable) : Nat → List ByteSeq → List ByteSeq
  | 0, syms => syms
  | fuel + 1, syms =>
    match pickMin (candidates T syms) with
    | none => syms
    | some ic => bpeRefLoop T fuel (mergeAt syms ic.1)

/-- Modelled from the spec: step 3 of section 4.2 — map each final
fragment to its rank; a missing fragment (malformed Rank Table) fails
with `UnknownByteSequence`. -/
def toTokens (T : RankTable) : List ByteSeq → Except BpeError (List Nat)
  | [] => .ok []
  | s :: rest =>
    match rankOf T s, toTokens T rest with
    | some r, .ok ts => .ok (r :: ts)
    | none, _ => .error .unknownByteSequence
    | some _, .error e => .error e

/-- The rank of each byte of a chunk, taken one byte at a time: the
tokenization that performs no merge at all. -/
def singleByteTokens (T : RankTable) : List Nat → Option (List Nat)
  | [] => some []
  | b :: rest =>
    match rankOf T [b], singleByteTokens T rest with
    | some r, some ts => some (r :: ts)
    | _, _ => none

/-- Modelled from the spec: the Merge Engine (section 4.2), absent from
`src/` — fails with `EmptyChunk` on a zero-length chunk, otherwise
initializes the Symbol Sequence as one fragment per byte, runs the
priority-merge loop and maps the final fragments to ranks. -/
def mergeEngine (T : RankTable) (p : ℚ) (draws : Nat → ℚ) (c : List Nat) :
    Except BpeError (List Nat) :=
  if c = [] then .error .emptyChunk
  else toTokens T (bpeLoop T p draws c.length 0 (c.map fun b => [b]))

/-- Modelled from the spec: the public `encode` operation on one plain
chunk (sections 4.3 and 6), absent from `src/` — a dropout probability
outside `[0,1]` is rejected with `InvalidParameter` before any
tokenization work; otherwise the chunk is handed to the Merge Engine. -/
def encode (T : RankTable) (c : List Nat) (p : ℚ) (draws : Nat → ℚ) :
    Except BpeError (List Nat) :=
  if p < 0 ∨ 1 < p then .error .invalidParameter
  else mergeEngine T p draws c

/-- Modelled from the spec: `encode` invoked with no dropout argument —
the reference, non-dropout tokenization of one plain chunk. -/
def encodeDefault (T : RankTable) (c : List Nat) : Except BpeError (List Nat) :=
  if c = [] then .error .emptyChunk
  else toTokens T (bpeRefLoop T c.length (c.map fun b => [b]))

/-- Modelled from the spec: the Decoder's per-id resolution (section 4.4),
absent from `src/` — resolve an id to a SpecialTokens literal or a Rank
Table byte-sequence; an id in neither table fails with `UnknownTokenId`. -/
def decodeId (T : RankTable) (S : SpecialTokens) (id : Nat) : Except BpeError ByteSeq :=
  match byteSeqOf S id with
  | some lit => .ok lit
  | none =>
    match byteSeqOf T id with
    | some bs => .ok bs
    | none => .error .unknownTokenId

/-- Modelled from the spec: the Decoder (section 4.4), absent from `src/`
— resolve each id in order and concatenate the resolved byte-sequences. -/
def decode (T : RankTable) (S : SpecialTokens) : List Nat → Except BpeError ByteSeq
  | [] => .ok []
  | id :: rest =>
    match decodeId T S id, decode T S rest with
    | .ok bs, .ok tail => .ok (bs ++ tail)
    | .error e, _ => .error e
    | .ok _, .error e => .error e

/-- Every fragment of a Symbol Sequence is a key of the Rank Table. -/
def keysOk (T : RankTable) (syms : List ByteSeq) : Prop :=
  ∀ s ∈ syms, (rankOf T s).isSome

/-- `EncodingParams` — the record an encoding constructor of
`src/tiktoken_ext/openai_public.py` returns: the per-model configuration
registry entry (name, optional explicit vocabulary size, pre-segmentation
pattern string, mergeable ranks, special tokens). `explicit_n_vocab` is
optional because `p50k_edit` and `cl100k_base` omit it. -/
structure EncodingParams where
  name : String
  explicit_n_vocab : Option Nat
  pat_str : String
  mergeable_ranks : RankTable
  special_tokens : List (String × Nat)

def ENDOFTEXT : String := "<|endoftext|>"

def p50k_base_url : String :=
  "https://openaipublic.blob.core.windows.net/encodings/p50k_base.tiktoken"

def p50k_base_expected_hash : String :=
  "94b5ca7dff4d00767bc256fdd1b27e5b17361d7b8a5f968547f9f23eb70d2069"

def p50k_edit_url : String :=
  "https://openaipublic.blob.core.windows.net/encodings/p50k_base.tiktoken"

def p50k_edit_expected_hash : String :=
  "94b5ca7dff4d00767bc256fdd1b27e5b17361d7b8a5f968547f9f23eb70d2069"

def p50k_pat_str : String :=
  "\x27s|\x27t|\x27re|\x27ve|\x27m|\x27ll|\x27d| ?\\p\x7bL\x7d+| ?\\p\x7bN\x7d+| ?[^\\s\\p\x7bL\x7d\\p\x7bN\x7d]+|\\s+(?!\\S)|\\s+"

def p50k_base (load_tiktoken_bpe : String → String → RankTable) : EncodingParams :=
  { name := "p50k_base"
    explicit_n_vocab := some 50281
    pat_str := p50k_pat_str
    mergeable_ranks := load_tiktoken_bpe p50k_base_url p50k_base_expected_hash
    special_tokens := [(ENDOFTEXT, 50256)] }

def p50k_edit (load_tiktoken_bpe : String → String → RankTable) : EncodingParams :=
  { name := "p50k_edit"
    explicit_n_vocab := none
    pat_str := p50k_pat_str
    mergeable_ranks := load_tiktoken_bpe p50k_edit_url p50k_edit_expected_hash
    special_tokens :=
      [(ENDOFTEXT, 50256), ("<|fim_prefix|>", 50281), ("<|fim_middle|>", 50282),
        ("<|fim_suffix|>", 50283)] }

def exTable : RankTable := [([0], 0), ([1], 1), ([0, 1], 2)]

def exSpecials : SpecialTokens := [([42], 100)]

def tieTable : RankTable := [([0], 0), ([0, 0], 1)]

def smallTable : RankTable := [([7], 42)]

def baseTable : RankTable := (List.range 256).map fun b => ([b], b)

def drawsZero : Nat → ℚ := fun _ => 0

def drawsHalf : Nat → ℚ := fun _ => 1 / 2

theorem survivors_zero (d : Nat → ℚ) (n : Nat) (l : List (Nat × Nat)) :
    survivors 0 d n l = l := by
  simp [survivors]

theorem mem_of_mem_survivorsAux {p : ℚ} {d : Nat → ℚ} {j : Nat} {l : List (Nat × Nat)}
    {x : Nat × Nat} (h : x ∈ survivorsAux p d j l) : x ∈ l := by
  induction l generalizing j with
  | nil => simp [survivorsAux] at h
  | cons c cs ih =>
    rw [survivorsAux] at h
    split at h
    · rcases List.mem_cons.1 h with h | h
      · exact h ▸ List.mem_cons_self _ _
      · exact List.mem_cons_of_mem _ (ih h)
    · exact List.mem_cons_of_mem _ (ih h)

theorem mem_of_mem_survivors {p : ℚ} {d : Nat → ℚ} {n : Nat} {l : List (Nat × Nat)}
    {x : Nat × Nat} (h : x ∈ survivors p d n l) : x ∈ l := by
  rw [survivors] at h
  split at h
  · exact h
  · exact mem_of_mem_survivorsAux h

theorem survivorsAux_one {d : Nat → ℚ} (hd : ∀ i, d i < 1) (j : Nat)
    (l : List (Nat × Nat)) : survivorsAux 1 d j l = [] := by
  induction l generalizing j with
  | nil => rfl
  | cons c cs ih =>
    rw [survivorsAux, if_neg (by exact not_le.2 (hd j))]
    exact ih _

theorem survivors_one {d : Nat → ℚ} (hd : ∀ i, d i < 1) (n : Nat)
    (l : List (Nat × Nat)) : survivors 1 d n l = [] := by
  rw [survivors, if_neg (by norm_num)]
  exact survivorsAux_one hd n l

theorem foldl_pickMin_mem (l : List (Nat × Nat)) (c : Nat × Nat) :
    l.foldl (fun best x => if x.2 < best.2 then x else best) c ∈ c :: l := by
  induction l generalizing c with
  | nil => exact List.mem_singleton.2 rfl
  | cons x xs ih =>
    rw [List.foldl_cons]
    rcases List.mem_cons.1 (ih (if x.2 < c.2 then x else c)) with h | h
    · rw [h]
      split
      · exact List.mem_cons_of_mem _ (List.mem_cons_self _ _)
      · exact List.mem_cons_self _ _
    · exact List.mem_cons_of_mem _ (List.mem_cons_of_mem _ h)

theorem pickMin_mem {l : List (Nat × Nat)} {x : Nat × Nat}
    (h : pickMin l = some x) : x ∈ l := by
  cases l with
  | nil => simp [pickMin] at h
  | cons c cs =>
    rw [pickMin, Option.some.injEq] at h
    exact h ▸ foldl_pickMin_mem cs c

theorem pickMin_eq_none {l : List (Nat × Nat)} : pickMin l = none ↔ l = [] := by
  cases l <;> simp [pickMin]

theorem mergeAt_flatten (syms : List ByteSeq) (i : Nat) :
    (mergeAt syms i).flatten = syms.flatten := by
  induction syms generalizing i with
  | nil => cases i <;> rfl
  | cons a rest ih =>
    cases i with
    | zero =>
      cases rest with
      | nil => rfl
      | cons b rest' => simp [mergeAt, List.append_assoc]
    | succ j => simp [mergeAt, ih]

theorem mergeAt_length_le (syms : List ByteSeq) (i : Nat) :
    (mergeAt syms i).length ≤ syms.length := by
  induction syms generalizing i with
  | nil => cases i <;> simp [mergeAt]
  | cons a rest ih =>
    cases i with
    | zero =>
      cases rest with
      | nil => simp [mergeAt]
      | cons b rest' => simp [mergeAt]
    | succ j =>
      have := ih j
      simp only [mergeAt, List.length_cons]
      omega

theorem mergeAt_length {syms : List ByteSeq} {i : Nat} (h : i + 1 < syms.length) :
    (mergeAt syms i).length + 1 = syms.length := by
  induction syms generalizing i with
  | nil => simp at h
  | cons a rest ih =>
    cases i with
    | zero =>
      cases rest with
      | nil => simp at h
      | cons b rest' => simp [mergeAt]
    | succ j =>
      have h' : j + 1 < rest.length := by
        simp only [List.length_cons] at h
        omega
      have := ih h'
      simp only [mergeAt, List.length_cons]
      omega

theorem mergeAt_mem {syms : List ByteSeq} {i : Nat} {x : ByteSeq}
    (h : x ∈ mergeAt syms i) : x ∈ syms ∨ x = pairAt syms i := by
  induction syms generalizing i with
  | nil => cases i <;> simp [mergeAt] at h
  | cons a rest ih =>
    cases i with
    | zero =>
      cases rest with
      | nil => exact Or.inl h
      | cons b rest' =>
        rw [mergeAt] at h
        rcases List.mem_cons.1 h with h | h
        · right
          simp [pairAt, h]
        · exact Or.inl (List.mem_cons_of_mem _ (List.mem_cons_of_mem _ h))
    | succ j =>
      simp only [mergeAt] at h
      rcases List.mem_cons.1 h with h | h
      · exact Or.inl (h ▸ List.mem_cons_self _ _)
      · rcases ih h with h | h
        · exact Or.inl (List.mem_cons_of_mem _ h)
        · right
          simpa [pairAt, List.getD_cons_succ] using h

theorem mem_candidates {T : RankTable} {syms : List ByteSeq} {x : Nat × Nat} :
    x ∈ candidates T syms ↔
      x.1 + 1 < syms.length ∧ rankOf T (pairAt syms x.1) = some x.2 := by
  constructor
  · intro h
    rw [candidates, List.mem_filterMap] at h
    obtain ⟨i, hi, hf⟩ := h
    rw [List.mem_range] at hi
    rw [Option.map_eq_some'] at hf
    obtain ⟨r, hr, hx⟩ := hf
    subst hx
    exact ⟨by omega, hr⟩
  · intro ⟨h1, h2⟩
    rw [candidates, List.mem_filterMap]
    refine ⟨x.1, List.mem_range.2 (by omega), ?_⟩
    rw [h2, Option.map_some']

theorem keysOk_mergeAt {T : RankTable} {syms : List ByteSeq} {x : Nat × Nat}
    (hk : keysOk T syms) (hc : x ∈ candidates T syms) :
    keysOk T (mergeAt syms x.1) := by
  intro s hs
  rcases mergeAt_mem hs with h | h
  · exact hk s h
  · rw [h, (mem_candidates.1 hc).2]
    rfl

theorem keysOk_bpeLoop {T : RankTable} {p : ℚ} {d : Nat → ℚ}
    (fuel n : Nat) {syms : List ByteSeq} (hk : keysOk T syms) :
    keysOk T (bpeLoop T p d fuel n syms) := by
  induction fuel generalizing n syms with
  | zero => exact hk
  | succ f ih =>
    rw [bpeLoop]
    cases h : pickMin (survivors p d n (candidates T syms)) with
    | none => exact hk
    | some ic =>
      exact ih _ (keysOk_mergeAt hk (mem_of_mem_survivors (pickMin_mem h)))

theorem bpeLoop_flatten (T : RankTable) (p : ℚ) (d : Nat → ℚ)
    (fuel n : Nat) (syms : List ByteSeq) :
    (bpeLoop T p d fuel n syms).flatten = syms.flatten := by
  induction fuel generalizing n syms with
  | zero => rfl
  | succ f ih =>
    rw [bpeLoop]
    cases h : pickMin (survivors p d n (candidates T syms)) with
    | none => rfl
    | some ic => rw [ih, mergeAt_flatten]

theorem bpeLoop_length_le (T : RankTable) (p : ℚ) (d : Nat → ℚ)
    (fuel n : Nat) (syms : List ByteSeq) :
    (bpeLoop T p d fuel n syms).length ≤ syms.length := by
  induction fuel generalizing n syms with
  | zero => exact le_rfl
  | succ f ih =>
    rw [bpeLoop]
    cases h : pickMin (survivors p d n (candidates T syms)) with
    | none => exact le_rfl
    | some ic => exact le_trans (ih _ _) (mergeAt_length_le _ _)

theorem toTokens_ok {T : RankTable} {syms : List ByteSeq} (hk : keysOk T syms) :
    ∃ ts, toTokens T syms = .ok ts ∧
      List.Forall₂ (fun s t => rankOf T s = some t) syms ts := by
  induction syms with
  | nil => exact ⟨[], rfl, List.Forall₂.nil⟩
  | cons s rest ih =>
    obtain ⟨r, hr⟩ := Option.isSome_iff_exists.1 (hk s (List.mem_cons_self _ _))
    obtain ⟨ts, hts, hf⟩ := ih fun x hx => hk x (List.mem_cons_of_mem _ hx)
    exact ⟨r :: ts, by rw [toTokens, hr, hts], List.Forall₂.cons hr hf⟩

theorem toTokens_error_eq {T : RankTable} {syms : List ByteSeq} {e : BpeError}
    (h : toTokens T syms = .error e) : e = .unknownByteSequence := by
  induction syms with
  | nil => simp [toTokens] at h
  | cons s rest ih =>
    rw [toTokens] at h
    split at h
    · simp at h
    · simp only [Except.error.injEq] at h
      exact h.symm
    · rename_i r e' hmatch
      simp only [Except.error.injEq] at h
      subst h
      exact ih hmatch

theorem rankOf_mem {T : RankTable} {s : ByteSeq} {r : Nat}
    (h : rankOf T s = some r) : (s, r) ∈ T := by
  induction T with
  | nil => simp [rankOf] at h
  | cons e rest ih =>
    obtain ⟨k, r'⟩ := e
    rw [rankOf] at h
    split at h
    · rename_i hk
      rw [Option.some.injEq] at h
      exact hk ▸ h ▸ List.mem_cons_self _ _
    · exact List.mem_cons_of_mem _ (ih h)

theorem rankOf_mem_ranks {T : RankTable} {s : ByteSeq} {r : Nat}
    (h : rankOf T s = some r) : r ∈ T.map Prod.snd :=
  List.mem_map.2 ⟨(s, r), rankOf_mem h, rfl⟩

/-- Under rank uniqueness, distinct keys cannot share a rank. -/
theorem rank_injective {T : RankTable} (hr : (T.map Prod.snd).Nodup)
    {s₁ s₂ : ByteSeq} {r : Nat} (h₁ : (s₁, r) ∈ T) (h₂ : (s₂, r) ∈ T) : s₁ = s₂ := by
  induction T with
  | nil => simp at h₁
  | cons e rest ih =>
    rw [List.map_cons, List.nodup_cons] at hr
    rcases List.mem_cons.1 h₁ with h₁ | h₁ <;> rcases List.mem_cons.1 h₂ with h₂ | h₂
    · rw [← h₂] at h₁
      exact congrArg Prod.fst h₁
    · have hre : r = e.2 := congrArg Prod.snd h₁
      exact absurd (List.mem_map.2 ⟨(s₂, r), h₂, hre⟩) hr.1
    · have hre : r = e.2 := congrArg Prod.snd h₂
      exact absurd (List.mem_map.2 ⟨(s₁, r), h₁, hre⟩) hr.1
    · exact ih hr.2 h₁ h₂

theorem byteSeqOf_of_rankOf {T : RankTable} (hr : (T.map Prod.snd).Nodup)
    {s : ByteSeq} {r : Nat} (h : rankOf T s = some r) : byteSeqOf T r = some s := by
  induction T with
  | nil => simp [rankOf] at h
  | cons e rest ih =>
    obtain ⟨k, r'⟩ := e
    rw [List.map_cons, List.nodup_cons] at hr
    rw [rankOf] at h
    rw [byteSeqOf]
    split at h
    · rename_i hk
      rw [Option.some.injEq] at h
      rw [if_pos h, hk]
    · rename_i hk
      have hmem : r ∈ rest.map Prod.snd := rankOf_mem_ranks h
      rw [if_neg (show ¬ r' = r from fun he => hr.1 (by rw [he]; exact hmem))]
      exact ih hr.2 h

theorem byteSeqOf_eq_none {S : SpecialTokens} {t : Nat}
    (h : ∀ e ∈ S, e.2 ≠ t) : byteSeqOf S t = none := by
  induction S with
  | nil => rfl
  | cons e rest ih =>
    obtain ⟨k, r⟩ := e
    rw [byteSeqOf, if_neg (h (k, r) (List.mem_cons_self _ _))]
    exact ih fun x hx => h x (List.mem_cons_of_mem _ hx)

theorem decode_tokens {T : RankTable} {S : SpecialTokens}
    (hr : (T.map Prod.snd).Nodup) (hS : ∀ e ∈ S, e.2 ∉ T.map Prod.snd)
    {syms : List ByteSeq} {ts : List Nat}
    (hf : List.Forall₂ (fun s t => rankOf T s = some t) syms ts) :
    decode T S ts = .ok syms.flatten := by
  induction hf with
  | nil => rfl
  | cons hst hrest ih =>
    rename_i s t syms' ts'
    have hsp : byteSeqOf S t = none :=
      byteSeqOf_eq_none fun e he ht => hS e he (ht ▸ rankOf_mem_ranks hst)
    rw [decode, decodeId, hsp, byteSeqOf_of_rankOf hr hst, ih, List.flatten_cons]

theorem flatten_map_singleton (c : List Nat) :
    (c.map fun b => [b]).flatten = c := by
  induction c with
  | nil => rfl
  | cons b rest ih => simp [ih]

theorem keysOk_map_singleton {T : RankTable} {c : List Nat}
    (hb : ∀ b ∈ c, (rankOf T [b]).isSome) :
    keysOk T (c.map fun b => [b]) := by
  intro s hs
  obtain ⟨b, hbc, hbs⟩ := List.mem_map.1 hs
  exact hbs ▸ hb b hbc

theorem getD_map_singleton {c : List Nat} {i : Nat} (h : i < c.length) :
    (c.map fun b => [b]).getD i [] = [c.getD i 0] := by
  induction c generalizing i with
  | nil => simp at h
  | cons b rest ih =>
    cases i with
    | zero => rfl
    | succ j => exact ih (by simpa using Nat.lt_of_succ_lt_succ h)

theorem bpeLoop_eq_refLoop (T : RankTable) (d : Nat → ℚ)
    (fuel n : Nat) (syms : List ByteSeq) :
    bpeLoop T 0 d fuel n syms = bpeRefLoop T fuel syms := by
  induction fuel generalizing n syms with
  | zero => rfl
  | succ f ih =>
    rw [bpeLoop, bpeRefLoop, survivors_zero]
    cases pickMin (candidates T syms) with
    | none => rfl
    | some ic => exact ih _ _

theorem encode_eq_mergeEngine {p : ℚ} (h0 : 0 ≤ p) (h1 : p ≤ 1)
    (T : RankTable) (c : List Nat) (d : Nat → ℚ) :
    encode T c p d = mergeEngine T p d c := by
  rw [encode, if_neg]
  rintro (h | h) <;> linarith

theorem mergeEngine_one {T : RankTable} {d : Nat → ℚ} (hd : ∀ i, d i < 1)
    {c : List Nat} (hc : c ≠ []) :
    mergeEngine T 1 d c = toTokens T (c.map fun b => [b]) := by
  rw [mergeEngine, if_neg hc]
  cases c with
  | nil => exact absurd rfl hc
  | cons b rest =>
    rw [List.length_cons, bpeLoop, survivors_one hd]
    rfl

theorem toTokens_singleByte {T : RankTable} {c : List Nat} {ts : List Nat}
    (h : singleByteTokens T c = some ts) :
    toTokens T (c.map fun b => [b]) = .ok ts := by
  induction c generalizing ts with
  | nil =>
    simp only [singleByteTokens, Option.some.injEq] at h
    rw [← h]
    rfl
  | cons b rest ih =>
    rw [singleByteTokens] at h
    split at h
    · rename_i r ts' hr hrest
      rw [Option.some.injEq] at h
      rw [List.map_cons, toTokens, hr, ih hrest, ← h]
    · simp at h

theorem singleByteTokens_length {T : RankTable} {c : List Nat} {ts : List Nat}
    (h : singleByteTokens T c = some ts) : ts.length = c.length := by
  induction c generalizing ts with
  | nil =>
    simp only [singleByteTokens, Option.some.injEq] at h
    rw [← h]
  | cons b rest ih =>
    rw [singleByteTokens] at h
    split at h
    · rename_i r ts' hr hrest
      rw [Option.some.injEq] at h
      rw [← h, List.length_cons, List.length_cons, ih hrest]
    · simp at h

theorem singleByteTokens_isSome {T : RankTable} {c : List Nat}
    (hb : ∀ b ∈ c, (rankOf T [b]).isSome) :
    ∃ ts, singleByteTokens T c = some ts := by
  induction c with
  | nil => exact ⟨[], rfl⟩
  | cons b rest ih =>
    obtain ⟨r, hr⟩ := Option.isSome_iff_exists.1 (hb b (List.mem_cons_self _ _))
    obtain ⟨ts, hts⟩ := ih fun x hx => hb x (List.mem_cons_of_mem _ hx)
    refine ⟨r :: ts, ?_⟩
    rw [singleByteTokens, hr, hts]

theorem pickMin_isSome {l : List (Nat × Nat)} (h : l ≠ []) :
    ∃ x, pickMin l = some x ∧ x ∈ l := by
  cases l with
  | nil => exact absurd rfl h
  | cons c cs => exact ⟨_, rfl, foldl_pickMin_mem cs c⟩

theorem survivors_nil (p : ℚ) (d : Nat → ℚ) (n : Nat) :
    survivors p d n [] = [] := by
  rw [survivors]
  split
  · rfl
  · rfl

theorem mergeEngine_ok_of_keysOk {T : RankTable} (p : ℚ) (d : Nat → ℚ)
    {c : List Nat} (hc : c ≠ []) (hb : ∀ b ∈ c, (rankOf T [b]).isSome) :
    ∃ ts, mergeEngine T p d c = .ok ts ∧
      List.Forall₂ (fun s t => rankOf T s = some t)
        (bpeLoop T p d c.length 0 (c.map fun b => [b])) ts := by
  obtain ⟨ts, hts, hf⟩ :=
    toTokens_ok (keysOk_bpeLoop c.length 0 (keysOk_map_singleton hb))
  exact ⟨ts, by rw [mergeEngine, if_neg hc, hts], hf⟩

theorem mergeEngine_zero_short {T : RankTable} {d : Nat → ℚ} {c : List Nat}
    (hp : ∃ i, i + 1 < c.length ∧
      (rankOf T [c.getD i 0, c.getD (i + 1) 0]).isSome)
    (hb : ∀ b ∈ c, (rankOf T [b]).isSome) :
    ∃ ts, mergeEngine T 0 d c = .ok ts ∧ ts.length < c.length := by
  obtain ⟨i, hi, hri⟩ := hp
  have hc : c ≠ [] := by
    intro h
    rw [h] at hi
    simp at hi
  have hlen : (c.map fun b => [b]).length = c.length := List.length_map _ _
  have hpair : pairAt (c.map fun b => [b]) i = [c.getD i 0, c.getD (i + 1) 0] := by
    rw [pairAt, getD_map_singleton (by omega), getD_map_singleton hi]
    rfl
  obtain ⟨r, hr⟩ := Option.isSome_iff_exists.1 hri
  have hcand : (i, r) ∈ candidates T (c.map fun b => [b]) :=
    mem_candidates.2 ⟨by rw [hlen]; exact hi, by rw [hpair]; exact hr⟩
  have hne : candidates T (c.map fun b => [b]) ≠ [] :=
    List.ne_nil_of_mem hcand
  obtain ⟨ts, hts, hf⟩ := mergeEngine_ok_of_keysOk 0 d hc hb
  refine ⟨ts, hts, ?_⟩
  rw [← hf.length_eq]
  obtain ⟨f, hfuel⟩ : ∃ f, c.length = f + 1 := ⟨c.length - 1, by omega⟩
  rw [hfuel, bpeLoop, survivors_zero]
  obtain ⟨x, hx, hxmem⟩ := pickMin_isSome hne
  rw [hx]
  show (bpeLoop T 0 d f (0 + (candidates T (c.map fun b => [b])).length)
      (mergeAt (c.map fun b => [b]) x.1)).length < f + 1
  have hxlt : x.1 + 1 < (c.map fun b => [b]).length := (mem_candidates.1 hxmem).1
  have h2 := mergeAt_length hxlt
  rw [hlen, hfuel] at h2
  have h1 := bpeLoop_length_le T 0 d f
    (0 + (candidates T (c.map fun b => [b])).length) (mergeAt (c.map fun b => [b]) x.1)
  omega

theorem minRank_survivor_unique {T : RankTable} (hr : (T.map Prod.snd).Nodup)
    (p : ℚ) (d : Nat → ℚ) (n : Nat) (syms : List ByteSeq) :
    ∀ a ∈ survivors p d n (candidates T syms),
      ∀ b ∈ survivors p d n (candidates T syms),
        (∀ x ∈ survivors p d n (candidates T syms), a.2 ≤ x.2) →
        (∀ x ∈ survivors p d n (candidates T syms), b.2 ≤ x.2) →
        a.2 = b.2 ∧ pairAt syms a.1 = pairAt syms b.1 := by
  intro a ha b hb mina minb
  have hab : a.2 = b.2 := le_antisymm (mina b hb) (minb a ha)
  have hra : rankOf T (pairAt syms a.1) = some a.2 :=
    (mem_candidates.1 (mem_of_mem_survivors ha)).2
  have hrb : rankOf T (pairAt syms b.1) = some b.2 :=
    (mem_candidates.1 (mem_of_mem_survivors hb)).2
  rw [← hab] at hrb
  exact ⟨hab, rank_injective hr (rankOf_mem hra) (rankOf_mem hrb)⟩

theorem candidates_singleton (T : RankTable) (s : ByteSeq) :
    candidates T [s] = [] := rfl

theorem encode_single_byte {T : RankTable} {b r : Nat}
    (hb : rankOf T [b] = some r) {p : ℚ} (h0 : 0 ≤ p) (h1 : p ≤ 1)
    (d : Nat → ℚ) : encode T [b] p d = .ok [r] := by
  rw [encode_eq_mergeEngine h0 h1, mergeEngine, if_neg (by simp)]
  have : bpeLoop T p d [b].length 0 ([b].map fun x => [x]) = [[b]] := by
    rw [List.length_singleton, List.map_singleton, bpeLoop,
      candidates_singleton, survivors_nil]
    rfl
  rw [this, toTokens, hb]
  rfl

/-- Claim C1: for every input chunk and Rank Table, `encode` with a
dropout probability of zero is deterministic — its result does not depend
on the injected draw stream, so repeated calls agree — and equals the
reference non-dropout tokenization, `encode` invoked with no dropout
argument. -/
theorem encode_dropout_zero_eq_default (T : RankTable) (c : List Nat)
    (d₁ d₂ : Nat → ℚ) :
    encode T c 0 d₁ = encode T c 0 d₂ ∧ encode T c 0 d₁ = encodeDefault T c := by
  have key : ∀ d : Nat → ℚ, encode T c 0 d = encodeDefault T c := by
    intro d
    rw [encode_eq_mergeEngine le_rfl zero_le_one, mergeEngine, encodeDefault,
      bpeLoop_eq_refLoop]
  exact ⟨(key d₁).trans (key d₂).symm, key d₁⟩

/-- Claim C2: for every non-empty input chunk, `encode` with a dropout
probability of one performs no merges: it returns exactly one token per
input byte (each byte's own rank), and the result is the same for every
draw stream with values in `[0,1)`, hence deterministic across repeated
calls. -/
theorem encode_dropout_one_single_bytes (T : RankTable) (c ts : List Nat)
    (d : Nat → ℚ) (hc : c ≠ []) (hts : singleByteTokens T c = some ts)
    (hd : ∀ i, d i < 1) :
    encode T c 1 d = .ok ts ∧ ts.length = c.length := by
  rw [encode_eq_mergeEngine zero_le_one le_rfl, mergeEngine_one hd hc,
    toTokens_singleByte hts]
  exact ⟨rfl, singleByteTokens_length hts⟩

theorem encode_dropout_one_single_bytes_witness :
    encode exTable [0, 1] 1 drawsZero = .ok [0, 1] ∧
      ([0, 1] : List Nat).length = ([0, 1] : List Nat).length :=
  encode_dropout_one_single_bytes exTable [0, 1] [0, 1] drawsZero
    (by decide) (by decide) (fun i => by norm_num [drawsZero])

/-- Claim C3: decoding inverts encoding — for every non-empty byte chunk
over a Rank Table with unique ranks and base bytes present, and every
Special-Token Table whose identifiers avoid the table's ranks, decoding
the tokens of `encode` at dropout zero returns the original bytes. -/
theorem decode_encode_roundtrip (T : RankTable) (S : SpecialTokens)
    (c : List Nat) (d : Nat → ℚ) (hr : (T.map Prod.snd).Nodup)
    (hS : ∀ e ∈ S, e.2 ∉ T.map Prod.snd)
    (hb : ∀ b ∈ c, (rankOf T [b]).isSome) (hc : c ≠ []) :
    ∃ ts, encode T c 0 d = .ok ts ∧ decode T S ts = .ok c := by
  obtain ⟨ts, hts, hf⟩ := mergeEngine_ok_of_keysOk 0 d hc hb
  refine ⟨ts, ?_, ?_⟩
  · rw [encode_eq_mergeEngine le_rfl zero_le_one]
    exact hts
  · rw [decode_tokens hr hS hf, bpeLoop_flatten, flatten_map_singleton]

theorem decode_encode_roundtrip_witness :
    ∃ ts, encode exTable [0, 1] 0 drawsZero = .ok ts ∧
      decode exTable exSpecials ts = .ok [0, 1] :=
  decode_encode_roundtrip exTable exSpecials [0, 1] drawsZero
    (by decide) (by decide) (by decide) (by decide)

/-- Claim C4: whenever some adjacent byte pair of the chunk has an entry
in the Rank Table (so at least one merge is possible under default
settings), `encode` at dropout one differs from `encode` at dropout
zero: the former keeps one token per byte while the latter performs at
least one merge, so the outputs have different lengths. -/
theorem encode_dropout_one_ne_default (T : RankTable) (c : List Nat)
    (d₀ d₁ : Nat → ℚ)
    (hp : ∃ i, i + 1 < c.length ∧
      (rankOf T [c.getD i 0, c.getD (i + 1) 0]).isSome)
    (hb : ∀ b ∈ c, (rankOf T [b]).isSome) (hd : ∀ i, d₁ i < 1) :
    encode T c 1 d₁ ≠ encode T c 0 d₀ := by
  have hc : c ≠ [] := by
    intro h
    obtain ⟨i, hi, _⟩ := hp
    rw [h] at hi
    simp at hi
  obtain ⟨ts1, hts1⟩ := singleByteTokens_isSome hb
  have h1 : encode T c 1 d₁ = .ok ts1 := by
    rw [encode_eq_mergeEngine zero_le_one le_rfl, mergeEngine_one hd hc,
      toTokens_singleByte hts1]
  obtain ⟨ts0, hts0, hlen⟩ := mergeEngine_zero_short hp hb
  have h0 : encode T c 0 d₀ = .ok ts0 := by
    rw [encode_eq_mergeEngine le_rfl zero_le_one]
    exact hts0
  rw [h1, h0]
  intro h
  rw [Except.ok.injEq] at h
  have hl1 := singleByteTokens_length hts1
  rw [h] at hl1
  omega

theorem encode_dropout_one_ne_default_witness :
    encode exTable [0, 1] 1 drawsZero ≠ encode exTable [0, 1] 0 drawsZero :=
  encode_dropout_one_ne_default exTable [0, 1] drawsZero drawsZero
    ⟨0, by decide, by decide⟩ (by decide) (fun i => by norm_num [drawsZero])

/-- Claim C5, counterexample: rank uniqueness does not make the
lowest-rank merge candidate unique. In the well-formed Rank Table
`tieTable` (distinct keys, distinct ranks), the initial Symbol Sequence
of the chunk `[0,0,0]` has two distinct non-dropped candidates, at
positions 0 and 1, both of minimal rank 1 — a tie between positions. -/
theorem lowest_rank_candidate_tie :
    (tieTable.map Prod.fst).Nodup ∧ (tieTable.map Prod.snd).Nodup ∧
    (0, 1) ∈ survivors 0 drawsZero 0
      (candidates tieTable ([0, 0, 0].map fun b => [b])) ∧
    (1, 1) ∈ survivors 0 drawsZero 0
      (candidates tieTable ([0, 0, 0].map fun b => [b])) ∧
    (∀ x ∈ survivors 0 drawsZero 0
      (candidates tieTable ([0, 0, 0].map fun b => [b])), 1 ≤ x.2) ∧
    ((0, 1) : Nat × Nat) ≠ (1, 1) := by
  decide

/-- Claim C5, amended: under rank uniqueness, any two minimal-rank
non-dropped candidates at a step carry the same rank and the same
concatenated byte-sequence — the merged pair is unique up to its byte
content, though it may occur at several positions (the engine resolves
the positional tie by taking the leftmost candidate). -/
theorem lowest_rank_candidate_unique_content (T : RankTable)
    (hr : (T.map Prod.snd).Nodup) (p : ℚ) (d : Nat → ℚ) (n : Nat)
    (syms : List ByteSeq) :
    ∀ a ∈ survivors p d n (candidates T syms),
      ∀ b ∈ survivors p d n (candidates T syms),
        (∀ x ∈ survivors p d n (candidates T syms), a.2 ≤ x.2) →
        (∀ x ∈ survivors p d n (candidates T syms), b.2 ≤ x.2) →
        a.2 = b.2 ∧ pairAt syms a.1 = pairAt syms b.1 :=
  minRank_survivor_unique hr p d n syms

theorem lowest_rank_candidate_unique_content_witness :
    ((0, 1) : Nat × Nat).2 = ((1, 1) : Nat × Nat).2 ∧
      pairAt [[0], [0], [0]] ((0, 1) : Nat × Nat).1 =
        pairAt [[0], [0], [0]] ((1, 1) : Nat × Nat).1 :=
  lowest_rank_candidate_unique_content tieTable (by decide) 0 drawsZero 0
    [[0], [0], [0]] (0, 1) (by decide) (1, 1) (by decide) (by decide) (by decide)

/-- Claim C6: the Merge Engine is total on non-empty chunks over a Rank
Table containing every base byte: for every dropout probability and draw
stream it produces a Token Id Sequence (the loop itself is structurally
bounded by the chunk length, and the final rank lookup cannot fail). -/
theorem mergeEngine_total (T : RankTable) (p : ℚ) (d : Nat → ℚ)
    (c : List Nat) (hc : c ≠ []) (hbytes : ∀ b ∈ c, b < 256)
    (hbase : ∀ b, b < 256 → (rankOf T [b]).isSome) :
    ∃ ts, mergeEngine T p d c = .ok ts := by
  obtain ⟨ts, hts, _⟩ :=
    mergeEngine_ok_of_keysOk p d hc fun b hb => hbase b (hbytes b hb)
  exact ⟨ts, hts⟩

set_option maxRecDepth 4096 in
theorem mergeEngine_total_witness :
    ∃ ts, mergeEngine baseTable (1 / 2) drawsHalf [65, 66] = .ok ts :=
  mergeEngine_total baseTable (1 / 2) drawsHalf [65, 66]
    (by decide) (by decide) (by decide)

/-- Claim C7: an input chunk of length one always encodes to exactly one
token — the rank of its single byte — for every dropout probability in
`[0,1]` and every draw stream. -/
theorem encode_length_one_chunk (T : RankTable) (b r : Nat) (p : ℚ)
    (d : Nat → ℚ) (hb : rankOf T [b] = some r) (h0 : 0 ≤ p) (h1 : p ≤ 1) :
    encode T [b] p d = .ok [r] :=
  encode_single_byte hb h0 h1 d

theorem encode_length_one_chunk_witness :
    encode smallTable [7] (1 / 2) drawsZero = .ok [42] :=
  encode_length_one_chunk smallTable 7 42 (1 / 2) drawsZero
    (by decide) (by norm_num) (by norm_num)

/-- Claim C8: for every input and every dropout probability outside
`[0,1]`, `encode` fails with `InvalidParameter`; the rejection precedes
all tokenization work — the result is this error for every chunk and
Rank Table, including the empty chunk. -/
theorem encode_invalid_dropout (T : RankTable) (c : List Nat) (p : ℚ)
    (d : Nat → ℚ) (hp : p < 0 ∨ 1 < p) :
    encode T c p d = .error .invalidParameter := by
  rw [encode, if_pos hp]

theorem encode_invalid_dropout_witness :
    encode exTable [0, 1] 2 drawsZero = .error .invalidParameter :=
  encode_invalid_dropout exTable [0, 1] 2 drawsZero (Or.inr (by norm_num))

/-- Claim C9: the Merge Engine fails with `EmptyChunk` exactly on the
zero-length chunk; on every non-empty chunk, whatever the Rank Table,
it never raises `EmptyChunk`. -/
theorem mergeEngine_emptyChunk_iff (T : RankTable) (p : ℚ) (d : Nat → ℚ)
    (c : List Nat) :
    mergeEngine T p d c = .error .emptyChunk ↔ c = [] := by
  constructor
  · intro h
    by_contra hc
    rw [mergeEngine, if_neg hc] at h
    cases toTokens_error_eq h
  · intro h
    rw [h, mergeEngine]
    rfl

/-- Claim C10: the `p50k_base` and `p50k_edit` constructors of
`src/tiktoken_ext/openai_public.py` load the same vocabulary blob — the
URL and expected hash they pass to `load_tiktoken_bpe` are identical —
so for any loader their `mergeable_ranks` coincide and encoding any
plain chunk yields identical token ids under either; the two encodings
differ in their special-token tables. -/
theorem p50k_base_edit_share_vocab :
    p50k_base_url = p50k_edit_url ∧
    p50k_base_expected_hash = p50k_edit_expected_hash ∧
    (∀ load, (p50k_base load).mergeable_ranks = (p50k_edit load).mergeable_ranks) ∧
    (∀ load c p d, encode (p50k_base load).mergeable_ranks c p d =
      encode (p50k_edit load).mergeable_ranks c p d) ∧
    (∀ load, (p50k_base load).special_tokens ≠ (p50k_edit load).special_tokens) :=
  ⟨rfl, rfl, fun _ => rfl, fun _ _ _ _ => rfl,
    fun _ h => by simp [p50k_base, p50k_edit] at h⟩

end TiktokenSpec
